import Mathlib

/-!
# Slice retention experiment (`cmd/slices/reclaim.go`, `internal/alloc.go`)

A shallow embedding of the Go program that builds a slice of 1000 `Foo`
records, narrows it to its first two elements with one of two functions and
prints the live heap size around a forced collection.

Modelling decisions.

* A Go slice of `Foo` is a window on a backing array.  `FooSlice` keeps the
  backing array from the slice's pointer up to its capacity (`backing`) and
  the length (`len`); the capacity is `backing.length`.  Two slices that
  share storage are two `FooSlice` values with the same `backing`.
* A `[]byte` is `Option (List Nat)`: `none` is the nil slice, `some bs` a
  slice with the bytes `bs`.
* A function that writes through a slice returns the slice as its caller
  sees it afterwards, next to its Go result.
* Run-time panics are values of `Panic` in `Except`.
* Loops recurse on a step budget.  Every caller passes the length of the
  slice, and the theorems prove that this budget is never exhausted.
* The console is a `String`; a value read from the runtime or from standard
  input is an argument of the function that reads it.
-/

namespace Reclaim

/-! ## Data model -/

/-- Run-time failures. -/
inductive Panic where
  /-- Index expression `s[i]` with `i` not below `len(s)`. -/
  | indexOutOfRange
  /-- Slice expression `s[:hi]` with `hi` above `cap(s)`. -/
  | sliceBounds
  /-- The step budget of a loop ran out. -/
  | outOfFuel
deriving DecidableEq, Repr

/-- The Go struct `Foo` with its single field `v []byte`. -/
structure Foo where
  v : Option (List Nat)
deriving DecidableEq, Repr

/-- A Go `[]Foo`: backing array from the slice pointer to the capacity, and length. -/
structure FooSlice where
  backing : List Foo
  len : Nat
deriving DecidableEq, Repr

namespace FooSlice

/-- The Go builtin `cap`. -/
def cap (s : FooSlice) : Nat := s.backing.length

/-- The Go invariant `len(s) <= cap(s)`. -/
def WF (s : FooSlice) : Prop := s.len ≤ s.backing.length

instance (s : FooSlice) : Decidable s.WF := by
  unfold WF; infer_instance

/-- The elements a slice gives access to by indexing: `s[0] .. s[len-1]`. -/
def elems (s : FooSlice) : List Foo := s.backing.take s.len

/-- The slice expression `s[:hi]`: same storage, length `hi`, same capacity. -/
def sliceTo (s : FooSlice) (hi : Nat) : Except Panic FooSlice :=
  if hi ≤ s.cap then .ok { backing := s.backing, len := hi }
  else .error .sliceBounds

/-- The assignment `s[i].v = b`. -/
def setV (s : FooSlice) (i : Nat) (b : Option (List Nat)) : Except Panic FooSlice :=
  if i < s.len then
    .ok { s with backing := s.backing.modify (fun f => { f with v := b }) i }
  else .error .indexOutOfRange

/-- The assignment `s[i] = f`. -/
def setElem (s : FooSlice) (i : Nat) (f : Foo) : Except Panic FooSlice :=
  if i < s.len then .ok { s with backing := s.backing.set i f }
  else .error .indexOutOfRange

end FooSlice

/-- What a narrowing function leaves behind: the argument slice as the caller
sees it after the call, and the returned slice. -/
structure Narrowed where
  foos : FooSlice
  two : FooSlice
deriving DecidableEq, Repr

/-! ## The two narrowing functions -/

/-- The function `keepFirstTwoElementsOnly`: `return foos[:2]`. -/
def keepFirstTwoElementsOnly (foos : FooSlice) : Except Panic Narrowed := do
  let two ← foos.sliceTo 2
  return { foos := foos, two := two }

/-- The loop `for i := ...; i < len(foos); i++ { foos[i].v = nil }`, entered
with counter `i`. -/
def clearLoop : Nat → FooSlice → Nat → Except Panic FooSlice
  | 0, foos, i => if i < foos.len then .error .outOfFuel else .ok foos
  | fuel + 1, foos, i =>
    if i < foos.len then do
      let foos ← foos.setV i none
      clearLoop fuel foos (i + 1)
    else .ok foos

/-- The function `keepFirstTwoElementsOnlyImproved`: clear `v` from index 2 on,
then return `foos[:2]`. -/
def keepFirstTwoElementsOnlyImproved (foos : FooSlice) : Except Panic Narrowed := do
  let foos ← clearLoop foos.len foos 2
  let two ← foos.sliceTo 2
  return { foos := foos, two := two }

/-! ## Population of the collection -/

/-- The Go expression `make([]Foo, n)`: `n` zero values, length and capacity `n`. -/
def makeFoos (n : Nat) : FooSlice :=
  { backing := List.replicate n { v := none }, len := n }

/-- The Go expression `make([]byte, n)`: a non-nil slice of `n` zero bytes. -/
def makeBytes (n : Nat) : Option (List Nat) := some (List.replicate n 0)

/-- The loop `for i := ...; i < len(foos); i++ { foos[i] = Foo{v: make([]byte, 1024*1024)} }`,
entered with counter `i`. -/
def populateLoop : Nat → FooSlice → Nat → Except Panic FooSlice
  | 0, foos, i => if i < foos.len then .error .outOfFuel else .ok foos
  | fuel + 1, foos, i =>
    if i < foos.len then do
      let foos ← foos.setElem i { v := makeBytes (1024 * 1024) }
      populateLoop fuel foos (i + 1)
    else .ok foos

/-! ## Console -/

/-- The process as a function of the standard library sees it: the text written
to standard output so far, and the rest of the program state. -/
structure World (σ : Type) where
  stdout : String
  state : σ

/-- The call `fmt.Println(s)` with one string argument. -/
def Println {σ : Type} (s : String) (w : World σ) : World σ :=
  { w with stdout := w.stdout ++ s ++ "\n" }

/-- The call `fmt.Print(s)` with one string argument. -/
def Print {σ : Type} (s : String) (w : World σ) : World σ :=
  { w with stdout := w.stdout ++ s }

/-- Digit loop of the verb `%d` for an unsigned value, after the standard library:
digits are produced right to left, `for u >= 10 { next := u / 10;
buf[i] = byte('0' + u - next*10); u = next }`, then the digit of the last `u`.  The step budget
bounds the number of iterations of the loop. -/
def fmtDigits : Nat → Nat → List Char → List Char
  | 0, u, acc => Char.ofNat ((48 + u) % 256) :: acc
  | fuel + 1, u, acc =>
    if 10 ≤ u then
      let next := u / 10
      fmtDigits fuel next (Char.ofNat ((48 + u - next * 10) % 256) :: acc)
    else Char.ofNat ((48 + u) % 256) :: acc

/-- The verb `%d` applied to a `uint64`: at most 20 digits, so at most 19 iterations. -/
def fmtInteger (u : Nat) : String := String.mk (fmtDigits 19 u [])

/-- The function `PrintAlloc` of package `internal`:
`runtime.ReadMemStats(&m); fmt.Printf("%d KB\n", m.Alloc/1024)`.
The argument `alloc` is the value the runtime stores in `m.Alloc`. -/
def PrintAlloc {σ : Type} (alloc : Nat) (w : World σ) : World σ :=
  { w with stdout := w.stdout ++ fmtInteger (alloc / 1024) ++ " KB\n" }

/-! ## Reading the choice -/

/-- The predicate `unicode.IsSpace`: the Latin-1 spaces `\t \n \v \f \r`, space,
U+0085, U+00A0, and the other code points with the White_Space property. -/
def isSpace (c : Char) : Bool :=
  let r := c.toNat
  (9 ≤ r && r ≤ 13) || r == 0x20 || r == 0x85 || r == 0xA0 || r == 0x1680 ||
  (0x2000 ≤ r && r ≤ 0x200a) || r == 0x2028 || r == 0x2029 || r == 0x202f ||
  r == 0x205f || r == 0x3000

/-- The function `strings.TrimSpace`: the string without its leading and trailing
white space.  A Go string is taken as its sequence of code points. -/
def TrimSpace (s : String) : String :=
  String.mk ((s.data.dropWhile isSpace).rdropWhile isSpace)

/-! ## The driver -/

/-- Which narrowing function `main` called. -/
inductive Strategy where
  /-- The function `keepFirstTwoElementsOnly`. -/
  | Naive
  /-- The function `keepFirstTwoElementsOnlyImproved`. -/
  | Cleared
deriving DecidableEq, Repr

/-- What a run of `main` leaves behind: the console text, the collection right
after `make`, after the population loop and at exit, the slice `two`, and the
narrowing function that was called. -/
structure Outcome where
  stdout : String
  allocated : FooSlice
  populated : FooSlice
  applied : Strategy
  foos : FooSlice
  two : FooSlice

/-- The function `main`.  The argument `line` is `scanner.Text()` after the one call of
`scanner.Scan()` (the empty string when nothing could be read); `r0`, `r1`, `r2` are
the values of `m.Alloc` at the three calls of `PrintAlloc`. -/
def main (line : String) (r0 r1 r2 : Nat) : Except Panic Outcome := do
  let allocated := makeFoos 1000
  let w : World FooSlice := PrintAlloc r0 { stdout := "", state := allocated }
  let populated ← populateLoop w.state.len w.state 0
  let w := { w with state := populated }
  let w := Println "Before garbage collection:" w
  let w := PrintAlloc r1 w
  let w := Println "Choose which method to use:" w
  let w := Println "1. Regular (keepFirstTwoElementsOnly)" w
  let w := Println "2. Improved (keepFirstTwoElementsOnlyImproved)" w
  let w := Print "Enter your choice (1 or 2): " w
  let choice := TrimSpace line
  let (w, applied, two) ←
    if choice = "2" then do
      let w := Println "Using improved version..." w
      let r ← keepFirstTwoElementsOnlyImproved w.state
      pure ({ w with state := r.foos }, Strategy.Cleared, r.two)
    else do
      let w := Println "Using regular version..." w
      let r ← keepFirstTwoElementsOnly w.state
      pure ({ w with state := r.foos }, Strategy.Naive, r.two)
  -- runtime.GC(): no effect on the values of the program
  let w := Println "After garbage collection:" w
  let w := PrintAlloc r2 w
  -- runtime.KeepAlive(two): no effect on the values of the program
  return { stdout := w.stdout, allocated := allocated, populated := populated,
           applied := applied, foos := w.state, two := two }

/-! ## Auxiliary definitions for the statements -/

/-- The record `f` with its buffer dropped. -/
def Foo.cleared : Foo → Foo := fun f => { f with v := none }

/-- The record the population loop stores at every index. -/
def Foo.filled : Foo := { v := makeBytes (1024 * 1024) }

/-- A small collection for evaluating the narrowing functions: four records in
storage, three of them within the length. -/
def sample : FooSlice :=
  { backing := [⟨some [1]⟩, ⟨some [2, 2]⟩, ⟨some [3]⟩, ⟨some [4]⟩], len := 3 }

/-- The collection after the population loop. -/
def populatedFoos (n : Nat) : FooSlice :=
  { backing := List.replicate n Foo.filled, len := n }

/-- The collection after the clearing loop ran on `populatedFoos n`. -/
def clearedFoos (n : Nat) : FooSlice :=
  { backing := List.replicate (min 2 n) Foo.filled ++ List.replicate (n - 2) { v := none },
    len := n }

/-- One line of the console protocol: the decimal rendering of `b / 1024`, then ` KB`. -/
def kbLine (b : Nat) : String := toString (b / 1024) ++ " KB\n"

/-- The console text of the specification's console protocol, from its words: the three
`KB` lines, the fixed lines, the prompt, and the version line chosen by `improved`. -/
def consoleProtocol (improved : Bool) (r0 r1 r2 : Nat) : String :=
  kbLine r0 ++ "Before garbage collection:\n" ++ kbLine r1 ++
  "Choose which method to use:\n" ++
  "1. Regular (keepFirstTwoElementsOnly)\n" ++
  "2. Improved (keepFirstTwoElementsOnlyImproved)\n" ++
  "Enter your choice (1 or 2): " ++
  (if improved then "Using improved version...\n" else "Using regular version...\n") ++
  "After garbage collection:\n" ++ kbLine r2

/-- The code points the specification of `unicode.IsSpace` lists as white space. -/
def whiteSpaceCodePoints : List Nat :=
  [0x09, 0x0a, 0x0b, 0x0c, 0x0d, 0x20, 0x85, 0xa0, 0x1680,
   0x2000, 0x2001, 0x2002, 0x2003, 0x2004, 0x2005, 0x2006, 0x2007, 0x2008, 0x2009, 0x200a,
   0x2028, 0x2029, 0x202f, 0x205f, 0x3000]

/-- The relation "`core` is `line` without its leading and trailing white space", in
words: `line` is `core` with only white space before and after it, and `core` neither
starts nor ends with white space. -/
def IsTrimOf (line core : List Char) : Prop :=
  (∃ pre post : List Char, line = pre ++ core ++ post ∧
    (∀ c ∈ pre, isSpace c = true) ∧ (∀ c ∈ post, isSpace c = true)) ∧
  (∀ c, core.head? = some c → isSpace c = false) ∧
  (∀ c, core.getLast? = some c → isSpace c = false)

/-! ## Lemmas on the loops -/

theorem clearLoop_spec (fuel : Nat) : ∀ (s : FooSlice) (i : Nat), s.len - i ≤ fuel →
    ∃ r, clearLoop fuel s i = .ok r ∧ r.len = s.len ∧
      r.backing.length = s.backing.length ∧
      ∀ j, r.backing[j]? =
        if i ≤ j ∧ j < s.len then (s.backing[j]?).map Foo.cleared else s.backing[j]? := by
  induction fuel with
  | zero =>
    intro s i h
    have hi : ¬ i < s.len := by omega
    refine ⟨s, by simp [clearLoop, hi], rfl, rfl, ?_⟩
    intro j
    have : ¬ (i ≤ j ∧ j < s.len) := by omega
    simp [this]
  | succ n ih =>
    intro s i h
    by_cases hi : i < s.len
    · obtain ⟨r, hr, hlen, hbl, hget⟩ :=
        ih { s with backing := s.backing.modify (fun f => { f with v := none }) i } (i + 1)
          (by simp only; omega)
      refine ⟨r, ?_, hlen, ?_, ?_⟩
      · simp only [clearLoop, hi, if_true, FooSlice.setV]
        exact hr
      · simpa using hbl
      · intro j
        rw [hget j]
        simp only [List.getElem?_modify]
        by_cases hj : i = j
        · subst hj
          have h1 : ¬ (i + 1 ≤ i ∧ i < s.len) := by omega
          simp [h1, hi]
          rfl
        · by_cases hj2 : i + 1 ≤ j ∧ j < s.len
          · have h3 : i ≤ j ∧ j < s.len := by omega
            simp [hj, hj2, h3]
          · have h3 : ¬ (i ≤ j ∧ j < s.len) := by omega
            simp [hj, hj2, h3]
    · refine ⟨s, by simp [clearLoop, hi], rfl, rfl, ?_⟩
      intro j
      have : ¬ (i ≤ j ∧ j < s.len) := by omega
      simp [this]

theorem populateLoop_spec (fuel : Nat) : ∀ (s : FooSlice) (i : Nat), s.len - i ≤ fuel →
    ∃ r, populateLoop fuel s i = .ok r ∧ r.len = s.len ∧
      r.backing.length = s.backing.length ∧
      ∀ j, r.backing[j]? =
        if i ≤ j ∧ j < s.len ∧ j < s.backing.length then some Foo.filled
        else s.backing[j]? := by
  induction fuel with
  | zero =>
    intro s i h
    have hi : ¬ i < s.len := by omega
    refine ⟨s, by simp [populateLoop, hi], rfl, rfl, ?_⟩
    intro j
    have : ¬ (i ≤ j ∧ j < s.len ∧ j < s.backing.length) := by omega
    simp [this]
  | succ n ih =>
    intro s i h
    by_cases hi : i < s.len
    · obtain ⟨r, hr, hlen, hbl, hget⟩ :=
        ih { s with backing := s.backing.set i { v := makeBytes (1024 * 1024) } } (i + 1)
          (by simp only; omega)
      refine ⟨r, ?_, hlen, ?_, ?_⟩
      · simp only [populateLoop, hi, if_true, FooSlice.setElem]
        exact hr
      · simpa using hbl
      · intro j
        rw [hget j]
        simp only [List.getElem?_set, List.length_set]
        by_cases hj : i = j
        · subst hj
          have h1 : ¬ (i + 1 ≤ i ∧ i < s.len ∧ i < s.backing.length) := by omega
          by_cases hb : i < s.backing.length
          · simp [h1, hi, hb, Foo.filled]
          · simp [hi, hb]
            omega
        · by_cases hj2 : i + 1 ≤ j ∧ j < s.len ∧ j < s.backing.length
          · have h3 : i ≤ j ∧ j < s.len ∧ j < s.backing.length := by omega
            simp only [hj2, h3, and_self, if_true]
          · have h3 : ¬ (i ≤ j ∧ j < s.len ∧ j < s.backing.length) := by omega
            simp [hj, hj2, h3]
    · refine ⟨s, by simp [populateLoop, hi], rfl, rfl, ?_⟩
      intro j
      have : ¬ (i ≤ j ∧ j < s.len ∧ j < s.backing.length) := by omega
      simp [this]

/-! ## Lemmas on the narrowing functions -/

theorem keepFirstTwoElementsOnly_eq (foos : FooSlice) (hcap : 2 ≤ foos.backing.length) :
    keepFirstTwoElementsOnly foos =
      .ok { foos := foos, two := { backing := foos.backing, len := 2 } } := by
  simp [keepFirstTwoElementsOnly, FooSlice.sliceTo, FooSlice.cap, hcap, bind, Except.bind,
    pure, Except.pure]

theorem keepFirstTwoElementsOnlyImproved_spec (foos : FooSlice)
    (hcap : 2 ≤ foos.backing.length) :
    ∃ r, keepFirstTwoElementsOnlyImproved foos = .ok r ∧ r.foos.len = foos.len ∧
      r.foos.backing.length = foos.backing.length ∧
      r.two = { backing := r.foos.backing, len := 2 } ∧
      ∀ j, r.foos.backing[j]? =
        if 2 ≤ j ∧ j < foos.len then (foos.backing[j]?).map Foo.cleared
        else foos.backing[j]? := by
  obtain ⟨c, hc, hlen, hbl, hget⟩ := clearLoop_spec foos.len foos 2 (by omega)
  refine ⟨{ foos := c, two := { backing := c.backing, len := 2 } }, ?_, hlen, hbl, rfl, hget⟩
  have h2 : 2 ≤ c.backing.length := by omega
  simp [keepFirstTwoElementsOnlyImproved, hc, FooSlice.sliceTo, FooSlice.cap, h2, bind,
    Except.bind, pure, Except.pure]

theorem elems_getElem? (s : FooSlice) (i : Nat) (h : i < s.len) :
    s.elems[i]? = s.backing[i]? := by
  simp [FooSlice.elems, List.getElem?_take, h]

/-! ## Lemmas on the driver -/

theorem populateLoop_makeFoos (n : Nat) :
    populateLoop (makeFoos n).len (makeFoos n) 0 = .ok (populatedFoos n) := by
  obtain ⟨r, hr, hlen, hbl, hget⟩ := populateLoop_spec (makeFoos n).len (makeFoos n) 0 (by omega)
  rw [hr]
  congr 1
  have hb : r.backing = List.replicate n Foo.filled := by
    apply List.ext_getElem?
    intro j
    rw [hget j]
    by_cases hj : j < n
    · simp [makeFoos, hj, List.getElem?_replicate]
    · simp [makeFoos, hj, List.getElem?_replicate]
  cases r
  simp only [populatedFoos] at *
  simp only [makeFoos] at hlen
  subst hlen
  subst hb
  rfl

theorem improved_populatedFoos (n : Nat) (hn : 2 ≤ n) :
    keepFirstTwoElementsOnlyImproved (populatedFoos n) =
      .ok { foos := clearedFoos n, two := { backing := (clearedFoos n).backing, len := 2 } } := by
  obtain ⟨r, hr, hlen, hbl, htwo, hget⟩ :=
    keepFirstTwoElementsOnlyImproved_spec (populatedFoos n) (by simp [populatedFoos]; omega)
  have hb : r.foos.backing = (clearedFoos n).backing := by
    apply List.ext_getElem?
    intro j
    rw [hget j]
    have hm : min 2 n = 2 := by omega
    simp only [populatedFoos, clearedFoos, hm, List.getElem?_append, List.length_replicate,
      List.getElem?_replicate]
    by_cases hj : j < 2
    · have h1 : ¬ (2 ≤ j ∧ j < n) := by omega
      have h2 : j < n := by omega
      simp [hj, h1, h2]
    · by_cases hj2 : j < n
      · have h1 : (2 ≤ j ∧ j < n) := by omega
        have h3 : j - 2 < n - 2 := by omega
        simp [hj, h1, hj2, h3, Foo.cleared]
      · have h1 : ¬ (2 ≤ j ∧ j < n) := by omega
        have h3 : ¬ j - 2 < n - 2 := by omega
        simp [hj, h1, hj2, h3]
  rw [hr]
  congr 1
  obtain ⟨⟨fb, fl⟩, t⟩ := r
  simp only at hlen hb htwo
  subst hb
  subst htwo
  simp only [populatedFoos] at hlen
  subst hlen
  rfl

theorem digit_char (d : Nat) (h : d < 10) : Char.ofNat ((48 + d) % 256) = Nat.digitChar d := by
  interval_cases d <;> rfl

theorem fmtDigits_eq_toDigitsCore (fuel : Nat) : ∀ (f2 u : Nat) (acc : List Char),
    u < 10 ^ (fuel + 1) → u < f2 → fmtDigits fuel u acc = Nat.toDigitsCore 10 f2 u acc := by
  induction fuel with
  | zero =>
    intro f2 u acc hu hf
    obtain ⟨k, rfl⟩ : ∃ k, f2 = k + 1 := ⟨f2 - 1, by omega⟩
    have hu10 : u < 10 := by simpa using hu
    have hd : u / 10 = 0 := by omega
    have hm : u % 10 = u := by omega
    simp [fmtDigits, Nat.toDigitsCore, hd, hm, digit_char u hu10]
  | succ n ih =>
    intro f2 u acc hu hf
    obtain ⟨k, rfl⟩ : ∃ k, f2 = k + 1 := ⟨f2 - 1, by omega⟩
    by_cases h10 : 10 ≤ u
    · have hd : u / 10 ≠ 0 := by omega
      have hc : 48 + u - u / 10 * 10 = 48 + u % 10 := by omega
      have hlt : u / 10 < 10 ^ (n + 1) := by
        rw [Nat.div_lt_iff_lt_mul (by norm_num)]
        calc u < 10 ^ (n + 1 + 1) := hu
          _ = 10 ^ (n + 1) * 10 := by ring
      simp only [fmtDigits, h10, if_true, Nat.toDigitsCore, hd, if_false, hc]
      rw [digit_char _ (Nat.mod_lt _ (by norm_num))]
      exact ih k (u / 10) _ hlt (by omega)
    · have hd : u / 10 = 0 := by omega
      have hm : u % 10 = u := by omega
      simp [fmtDigits, Nat.toDigitsCore, h10, hd, hm, digit_char u (by omega)]

theorem fmtInteger_eq_toString (u : Nat) (h : u < 2 ^ 64) : fmtInteger u = toString u := by
  have h20 : u < 10 ^ (19 + 1) := by
    have : (2 : Nat) ^ 64 < 10 ^ (19 + 1) := by norm_num
    omega
  show String.mk (fmtDigits 19 u []) = Nat.repr u
  rw [fmtDigits_eq_toDigitsCore 19 (u + 1) u [] h20 (by omega)]
  rfl

theorem naive_populatedFoos (n : Nat) (hn : 2 ≤ n) :
    keepFirstTwoElementsOnly (populatedFoos n) = .ok
      { foos := populatedFoos n, two := { backing := (populatedFoos n).backing, len := 2 } } :=
  keepFirstTwoElementsOnly_eq _ (by simp [populatedFoos]; omega)

theorem main_eq (line : String) (r0 r1 r2 : Nat) :
    main line r0 r1 r2 = .ok
      { stdout := (PrintAlloc r2 (Println "After garbage collection:"
            (Println (if TrimSpace line = "2" then "Using improved version..."
                else "Using regular version...")
            (Print "Enter your choice (1 or 2): "
            (Println "2. Improved (keepFirstTwoElementsOnlyImproved)"
            (Println "1. Regular (keepFirstTwoElementsOnly)"
            (Println "Choose which method to use:"
            (PrintAlloc r1 (Println "Before garbage collection:"
            (PrintAlloc r0 (World.mk "" ()))))))))))).stdout,
        allocated := makeFoos 1000,
        populated := populatedFoos 1000,
        applied := if TrimSpace line = "2" then .Cleared else .Naive,
        foos := if TrimSpace line = "2" then clearedFoos 1000 else populatedFoos 1000,
        two := { backing := if TrimSpace line = "2" then (clearedFoos 1000).backing
                   else (populatedFoos 1000).backing, len := 2 } } := by
  unfold main
  obtain ⟨n, hn1000⟩ : ∃ n : Nat, n = 1000 := ⟨_, rfl⟩
  rw [← hn1000]
  have h2 : 2 ≤ n := by omega
  clear hn1000
  have hp : populateLoop (PrintAlloc r0 (World.mk "" (makeFoos n))).state.len
      (PrintAlloc r0 (World.mk "" (makeFoos n))).state 0 = .ok (populatedFoos n) :=
    populateLoop_makeFoos n
  have hn := naive_populatedFoos n h2
  have hi := improved_populatedFoos n h2
  simp only [hp, bind, Except.bind]
  by_cases hc : TrimSpace line = "2"
  · simp only [hc, if_true, PrintAlloc, Println, Print, hi,
      bind, Except.bind, pure, Except.pure]
  · simp only [hc, if_false, PrintAlloc, Println, Print, hn,
      bind, Except.bind, pure, Except.pure]

theorem empty_append (s : String) : "" ++ s = s := by
  apply String.ext
  simp [String.data_append]

theorem stdout_eq (line : String) (r0 r1 r2 : Nat)
    (h0 : r0 < 2 ^ 64) (h1 : r1 < 2 ^ 64) (h2 : r2 < 2 ^ 64) :
    (PrintAlloc r2 (Println "After garbage collection:"
      (Println (if TrimSpace line = "2" then "Using improved version..."
          else "Using regular version...")
      (Print "Enter your choice (1 or 2): "
      (Println "2. Improved (keepFirstTwoElementsOnlyImproved)"
      (Println "1. Regular (keepFirstTwoElementsOnly)"
      (Println "Choose which method to use:"
      (PrintAlloc r1 (Println "Before garbage collection:"
      (PrintAlloc r0 (World.mk "" ()))))))))))).stdout =
    consoleProtocol (decide (TrimSpace line = "2")) r0 r1 r2 := by
  have d0 : r0 / 1024 < 2 ^ 64 := by omega
  have d1 : r1 / 1024 < 2 ^ 64 := by omega
  have d2 : r2 / 1024 < 2 ^ 64 := by omega
  simp only [PrintAlloc, Println, Print, consoleProtocol, kbLine,
    fmtInteger_eq_toString _ d0, fmtInteger_eq_toString _ d1, fmtInteger_eq_toString _ d2]
  by_cases hc : TrimSpace line = "2"
  · simp only [hc, if_true, decide_True, String.append_assoc, empty_append]
    rfl
  · simp only [hc, if_false, decide_False, String.append_assoc, empty_append]
    rfl

theorem digitChar_isDigit (d : Nat) (h : d < 10) : (Nat.digitChar d).isDigit = true := by
  interval_cases d <;> rfl

theorem fmtDigits_isDigit (fuel : Nat) : ∀ (u : Nat) (acc : List Char),
    u < 10 ^ (fuel + 1) → ∀ c ∈ fmtDigits fuel u acc, c ∈ acc ∨ c.isDigit = true := by
  induction fuel with
  | zero =>
    intro u acc hu c hc
    have hu10 : u < 10 := by simpa using hu
    simp only [fmtDigits, List.mem_cons] at hc
    rcases hc with rfl | hc
    · right
      rw [digit_char u hu10]
      exact digitChar_isDigit u hu10
    · exact Or.inl hc
  | succ n ih =>
    intro u acc hu c hc
    by_cases h10 : 10 ≤ u
    · have hlt : u / 10 < 10 ^ (n + 1) := by
        rw [Nat.div_lt_iff_lt_mul (by norm_num)]
        calc u < 10 ^ (n + 1 + 1) := hu
          _ = 10 ^ (n + 1) * 10 := by ring
      have hcc : 48 + u - u / 10 * 10 = 48 + u % 10 := by omega
      simp only [fmtDigits, h10, if_true, hcc] at hc
      rcases ih (u / 10) _ hlt c hc with h | h
      · simp only [List.mem_cons] at h
        rcases h with rfl | h
        · right
          rw [digit_char _ (Nat.mod_lt _ (by norm_num))]
          exact digitChar_isDigit _ (Nat.mod_lt _ (by norm_num))
        · exact Or.inl h
      · exact Or.inr h
    · simp only [fmtDigits, h10, if_false, List.mem_cons] at hc
      rcases hc with rfl | hc
      · right
        rw [digit_char u (by omega)]
        exact digitChar_isDigit u (by omega)
      · exact Or.inl hc

theorem toString_isDigit (u : Nat) (h : u < 2 ^ 64) :
    ∀ c ∈ (toString u).data, c.isDigit = true := by
  intro c hc
  rw [← fmtInteger_eq_toString u h] at hc
  have h20 : u < 10 ^ (19 + 1) := by
    have : (2 : Nat) ^ 64 < 10 ^ (19 + 1) := by norm_num
    omega
  rcases fmtDigits_isDigit 19 u [] h20 c hc with h | h
  · simp at h
  · exact h

theorem TrimSpace_idem (s : String) : TrimSpace (TrimSpace s) = TrimSpace s := by
  simp only [TrimSpace]
  congr 1
  have hd : List.dropWhile isSpace (List.rdropWhile isSpace (List.dropWhile isSpace s.data)) =
      List.rdropWhile isSpace (List.dropWhile isSpace s.data) := by
    rcases hb : List.rdropWhile isSpace (List.dropWhile isSpace s.data) with _ | ⟨x, t⟩
    · rfl
    · have hp : (x :: t) <+: List.dropWhile isSpace s.data := by
        rw [← hb]
        exact List.rdropWhile_prefix _ _
      obtain ⟨u, hu⟩ := hp
      have hne : List.dropWhile isSpace s.data ≠ [] := by
        rw [← hu]
        simp
      have hx := List.head_dropWhile_not isSpace s.data hne
      have hh : (List.dropWhile isSpace s.data).head hne = x := by
        simp only [← hu]
        rfl
      rw [hh] at hx
      simp [List.dropWhile_cons, hx]
  rw [hd, List.rdropWhile_idempotent]

theorem makeFoos_elems (n : Nat) : (makeFoos n).elems = List.replicate n { v := none } := by
  simp [makeFoos, FooSlice.elems]

theorem populatedFoos_elems (n : Nat) : (populatedFoos n).elems = List.replicate n Foo.filled := by
  simp [populatedFoos, FooSlice.elems]

theorem filled_buffer : ∃ buf, Foo.filled.v = some buf ∧ buf.length = 1048576 := by
  refine ⟨List.replicate (1024 * 1024) 0, rfl, ?_⟩
  rw [List.length_replicate]

theorem filled_isSome : Foo.filled.v.isSome = true := rfl

theorem filled_isNone : Foo.filled.v.isNone = false := rfl

theorem populatedFoos_count (n : Nat) :
    (populatedFoos n).backing.countP (fun f => f.v.isSome) = n := by
  simp only [populatedFoos, List.countP_replicate, filled_isSome, if_true]

theorem clearedFoos_count (n : Nat) (hn : 2 ≤ n) :
    (clearedFoos n).backing.countP (fun f => f.v.isSome) = 2 ∧
    (clearedFoos n).backing.countP (fun f => f.v.isNone) = n - 2 ∧
    (clearedFoos n).backing.length = n := by
  have hm : min 2 n = 2 := by omega
  simp only [clearedFoos, hm, List.countP_append, List.countP_replicate, List.length_append,
    List.length_replicate, filled_isSome, filled_isNone, Option.isSome_none, Option.isNone_none,
    if_true, Bool.false_eq_true, if_false]
  clear hm
  exact ⟨trivial, by omega, by omega⟩

/-! ## Lemmas on trimming and on the console text -/

theorem dropWhile_append_all (p : Char → Bool) (pre l : List Char)
    (h : ∀ c ∈ pre, p c = true) : (pre ++ l).dropWhile p = l.dropWhile p := by
  induction pre with
  | nil => rfl
  | cons x t ih =>
    have hx : p x = true := h x (List.mem_cons_self _ _)
    have ht : ∀ c ∈ t, p c = true := fun c hc => h c (List.mem_cons_of_mem _ hc)
    simp only [List.cons_append, List.dropWhile_cons, hx, if_true]
    exact ih ht

theorem rdropWhile_append_all (p : Char → Bool) (l post : List Char)
    (h : ∀ c ∈ post, p c = true) : (l ++ post).rdropWhile p = l.rdropWhile p := by
  simp only [List.rdropWhile, List.reverse_append]
  rw [dropWhile_append_all p post.reverse l.reverse (fun c hc => h c (List.mem_reverse.mp hc))]

theorem trim_isTrimOf (l : List Char) :
    IsTrimOf l ((l.dropWhile isSpace).rdropWhile isSpace) := by
  refine ⟨⟨l.takeWhile isSpace, (l.dropWhile isSpace).rtakeWhile isSpace, ?_,
    fun c hc => List.mem_takeWhile_imp hc, fun c hc => List.mem_rtakeWhile_imp hc⟩, ?_, ?_⟩
  · have hd : List.rdropWhile isSpace (l.dropWhile isSpace) ++
        List.rtakeWhile isSpace (l.dropWhile isSpace) = l.dropWhile isSpace := by
      simp only [List.rdropWhile, List.rtakeWhile, ← List.reverse_append,
        List.takeWhile_append_dropWhile, List.reverse_reverse]
    rw [List.append_assoc, hd, List.takeWhile_append_dropWhile]
  · intro c hc
    rcases hb : List.rdropWhile isSpace (List.dropWhile isSpace l) with _ | ⟨x, t⟩
    · rw [hb] at hc
      simp at hc
    · rw [hb] at hc
      have hxc : x = c := by simpa using hc
      have hp : (x :: t) <+: List.dropWhile isSpace l := by
        rw [← hb]
        exact List.rdropWhile_prefix _ _
      obtain ⟨u, hu⟩ := hp
      have hne : List.dropWhile isSpace l ≠ [] := by
        rw [← hu]
        simp
      have hx := List.head_dropWhile_not isSpace l hne
      have hh : (List.dropWhile isSpace l).head hne = x := by
        simp only [← hu]
        rfl
      rw [hh, hxc] at hx
      exact hx
  · intro c hc
    have hne : List.rdropWhile isSpace (List.dropWhile isSpace l) ≠ [] := by
      intro h0
      rw [h0] at hc
      simp at hc
    have hlast := List.rdropWhile_last_not isSpace (List.dropWhile isSpace l) hne
    rw [List.getLast?_eq_getLast _ hne] at hc
    have hcc : (List.rdropWhile isSpace (List.dropWhile isSpace l)).getLast hne = c := by
      simpa using hc
    rw [hcc] at hlast
    simpa using hlast

theorem trim_unique (l core : List Char) (h : IsTrimOf l core) :
    core = (l.dropWhile isSpace).rdropWhile isSpace := by
  obtain ⟨⟨pre, post, hl, hpre, hpost⟩, hhead, hlast⟩ := h
  subst hl
  rw [List.append_assoc, dropWhile_append_all isSpace pre _ hpre]
  cases core with
  | nil =>
    have : List.dropWhile isSpace ([] ++ post) = [] := by
      rw [List.nil_append, List.dropWhile_eq_nil_iff]
      exact hpost
    rw [this]
    rfl
  | cons c t =>
    have hc : isSpace c = false := hhead c rfl
    have hc2 : ¬ isSpace c = true := by simp [hc]
    rw [List.cons_append, List.dropWhile_cons_of_neg hc2, ← List.cons_append,
      rdropWhile_append_all isSpace (c :: t) post hpost]
    symm
    rw [List.rdropWhile_eq_self_iff]
    intro hl
    have := hlast _ (List.getLast?_eq_getLast _ hl)
    simp [this]

theorem trimmed_two_iff (line : String) :
    TrimSpace line = "2" ↔ ∃ pre post : List Char,
      line.data = pre ++ ['2'] ++ post ∧
      (∀ c ∈ pre, isSpace c = true) ∧ (∀ c ∈ post, isSpace c = true) := by
  constructor
  · intro h
    obtain ⟨⟨pre, post, hl, hpre, hpost⟩, -, -⟩ := trim_isTrimOf line.data
    have hd : (line.data.dropWhile isSpace).rdropWhile isSpace = ['2'] := by
      have := congrArg String.data h
      simpa [TrimSpace] using this
    rw [hd] at hl
    exact ⟨pre, post, hl, hpre, hpost⟩
  · rintro ⟨pre, post, hl, hpre, hpost⟩
    have hu := trim_unique line.data ['2'] ⟨⟨pre, post, hl, hpre, hpost⟩,
      by intro c hc; simp at hc; subst hc; decide,
      by intro c hc; simp at hc; subst hc; decide⟩
    simp only [TrimSpace, ← hu]

theorem isSpace_iff (c : Char) : isSpace c = true ↔ c.toNat ∈ whiteSpaceCodePoints := by
  simp only [isSpace, whiteSpaceCodePoints, Bool.or_eq_true, Bool.and_eq_true, decide_eq_true_eq,
    beq_iff_eq, List.mem_cons, List.not_mem_nil, or_false]
  generalize c.toNat = n
  omega

set_option maxRecDepth 20000 in
theorem console_regular_instance :
    ∃ res, main "1" 0 0 0 = .ok res ∧ res.stdout =
      "0 KB\nBefore garbage collection:\n0 KB\nChoose which method to use:\n" ++
      "1. Regular (keepFirstTwoElementsOnly)\n" ++
      "2. Improved (keepFirstTwoElementsOnlyImproved)\n" ++
      "Enter your choice (1 or 2): Using regular version...\n" ++
      "After garbage collection:\n0 KB\n" :=
  ⟨_, main_eq "1" 0 0 0, by decide⟩

set_option maxRecDepth 20000 in
theorem console_improved_instance :
    ∃ res, main " 2 " 1048576000 2048 2047 = .ok res ∧ res.stdout =
      "1024000 KB\nBefore garbage collection:\n2 KB\nChoose which method to use:\n" ++
      "1. Regular (keepFirstTwoElementsOnly)\n" ++
      "2. Improved (keepFirstTwoElementsOnlyImproved)\n" ++
      "Enter your choice (1 or 2): Using improved version...\n" ++
      "After garbage collection:\n1 KB\n" :=
  ⟨_, main_eq " 2 " 1048576000 2048 2047, by decide⟩

/-! ## The narrowing functions: claims -/

/-- C2: for a collection of length at least 2, `keepFirstTwoElementsOnlyImproved`
returns, leaves a nil buffer in every record at an index from 2 up to the length,
leaves the records at indices 0 and 1 as they were, and keeps the length of the
collection. -/
theorem keepFirstTwoElementsOnlyImproved_clears (foos : FooSlice) (hwf : foos.WF)
    (h2 : 2 ≤ foos.len) :
    ∃ r, keepFirstTwoElementsOnlyImproved foos = .ok r ∧
      (∀ i, 2 ≤ i → i < foos.len → (r.foos.elems[i]?).map Foo.v = some none) ∧
      r.foos.elems[0]? = foos.elems[0]? ∧ r.foos.elems[1]? = foos.elems[1]? ∧
      (∃ a b, foos.elems[0]? = some a ∧ foos.elems[1]? = some b) ∧
      r.foos.len = foos.len ∧ r.foos.elems.length = foos.elems.length := by
  have hwf2 : foos.len ≤ foos.backing.length := hwf
  obtain ⟨r, hr, hlen, hbl, -, hget⟩ :=
    keepFirstTwoElementsOnlyImproved_spec foos (by omega)
  have h0 : r.foos.elems[0]? = foos.elems[0]? := by
    rw [elems_getElem? _ _ (by omega), elems_getElem? _ _ (by omega), hget 0]
    simp
  have h1 : r.foos.elems[1]? = foos.elems[1]? := by
    rw [elems_getElem? _ _ (by omega), elems_getElem? _ _ (by omega), hget 1]
    simp
  refine ⟨r, hr, ?_, h0, h1, ?_, hlen, ?_⟩
  · intro i hi2 hi
    rw [elems_getElem? _ _ (by omega), hget i]
    have hib : i < foos.backing.length := by omega
    simp [hi2, hi, List.getElem?_eq_getElem hib, Foo.cleared]
  · refine ⟨foos.backing[0], foos.backing[1], ?_, ?_⟩
    · rw [elems_getElem? _ _ (by omega), List.getElem?_eq_getElem]
    · rw [elems_getElem? _ _ (by omega), List.getElem?_eq_getElem]
  · simp [FooSlice.elems, hlen, hbl]

/-- C3: for a collection of length at least 2, `keepFirstTwoElementsOnly` returns the
records at indices 0 and 1 in that order, a view of length 2 on the same storage, and
the collection, its whole backing array included, is what it was before the call. -/
theorem keepFirstTwoElementsOnly_frame (foos : FooSlice) (hwf : foos.WF)
    (h2 : 2 ≤ foos.len) :
    ∃ r, keepFirstTwoElementsOnly foos = .ok r ∧
      (∃ a b, foos.elems[0]? = some a ∧ foos.elems[1]? = some b ∧ r.two.elems = [a, b]) ∧
      r.foos = foos ∧ r.two.backing = foos.backing := by
  have hwf2 : foos.len ≤ foos.backing.length := hwf
  refine ⟨_, keepFirstTwoElementsOnly_eq foos (by omega), ?_, rfl, rfl⟩
  refine ⟨foos.backing[0], foos.backing[1], ?_, ?_, ?_⟩
  · rw [elems_getElem? _ _ (by omega), List.getElem?_eq_getElem]
  · rw [elems_getElem? _ _ (by omega), List.getElem?_eq_getElem]
  · simp only [FooSlice.elems]
    match hb : foos.backing, hwf2 with
    | [], h => simp at h; omega
    | [_], h => simp at h; omega
    | a :: b :: t, _ => simp

/-- C4: for a collection of length at least 2 both narrowing functions return, and
they return the same view: the same two records, which are the first two records
of the collection as it was before the call, length 2 and the same capacity.  The
collections they leave behind have the same length and agree at every index
outside the range from 2 up to the length. -/
theorem narrowed_views_agree (foos : FooSlice) (hwf : foos.WF) (h2 : 2 ≤ foos.len) :
    ∃ a b, keepFirstTwoElementsOnlyImproved foos = .ok a ∧
      keepFirstTwoElementsOnly foos = .ok b ∧
      a.two.elems = b.two.elems ∧ a.two.elems = foos.elems.take 2 ∧
      a.two.elems.length = 2 ∧ a.two.len = 2 ∧ b.two.len = 2 ∧ a.two.cap = b.two.cap ∧
      a.foos.len = b.foos.len ∧
      ∀ i, (i < 2 ∨ foos.len ≤ i) → a.foos.backing[i]? = b.foos.backing[i]? := by
  have hwf2 : foos.len ≤ foos.backing.length := hwf
  obtain ⟨r, hr, hlen, hbl, htwo, hget⟩ :=
    keepFirstTwoElementsOnlyImproved_spec foos (by omega)
  have hview : r.two.elems = foos.elems.take 2 := by
    rw [htwo]
    simp only [FooSlice.elems, List.take_take]
    have hm : min 2 foos.len = 2 := by omega
    rw [hm]
    apply List.ext_getElem?
    intro j
    by_cases hj : j < 2
    · have hj2 : ¬ (2 ≤ j ∧ j < foos.len) := by omega
      simp [List.getElem?_take, hj, hget j, hj2]
    · simp [List.getElem?_take, hj]
  refine ⟨r, _, hr, keepFirstTwoElementsOnly_eq foos (by omega), ?_, hview, ?_, ?_, rfl, ?_,
    hlen, ?_⟩
  · rw [hview]
    simp only [FooSlice.elems, List.take_take]
    have hm : min 2 foos.len = 2 := by omega
    rw [hm]
  · rw [hview]
    simp [FooSlice.elems]
    omega
  · rw [htwo]
  · rw [htwo]
    simp [FooSlice.cap, hbl]
  · intro i hi
    have hi2 : ¬ (2 ≤ i ∧ i < foos.len) := by omega
    simp [hget i, hi2]

/-! ## The reporter: claims -/

/-- C6: for every byte count `b` below `2^64`, `PrintAlloc` appends to the console the
decimal rendering of `b / 1024` (digits only), then ` KB` and a line feed, which is the
only line feed of the appended text, and leaves the rest of the program state as it
was. -/
theorem PrintAlloc_prints (σ : Type) (b : Nat) (hb : b < 2 ^ 64) (w : World σ) :
    (PrintAlloc b w).stdout = w.stdout ++ (toString (b / 1024) ++ " KB\n") ∧
    (∀ c ∈ (toString (b / 1024)).data, c.isDigit = true) ∧
    (toString (b / 1024) ++ " KB\n").data.count (Char.ofNat 10) = 1 ∧
    (toString (b / 1024) ++ " KB\n").data.getLast? = some (Char.ofNat 10) ∧
    (PrintAlloc b w).state = w.state := by
  have hd : b / 1024 < 2 ^ 64 := by omega
  have hdig := toString_isDigit (b / 1024) hd
  refine ⟨?_, hdig, ?_, ?_, rfl⟩
  · simp only [PrintAlloc, fmtInteger_eq_toString _ hd, String.append_assoc]
  · have h0 : (toString (b / 1024)).data.count (Char.ofNat 10) = 0 := by
      rw [List.count_eq_zero]
      intro hmem
      have := hdig _ hmem
      revert this
      decide
    rw [String.data_append, List.count_append, h0]
    decide
  · rw [String.data_append]
    have : (" KB\n" : String).data = [Char.ofNat 32, Char.ofNat 75, Char.ofNat 66] ++
        [Char.ofNat 10] := by decide
    rw [this, ← List.append_assoc, List.getLast?_append]
    rfl

/-- Evaluation of C6 at the reading 2048 on a console that holds `x`. -/
theorem PrintAlloc_prints_witness :
    2048 < 2 ^ 64 ∧
    ((PrintAlloc 2048 (World.mk "x" ())).stdout = "x" ++ (toString (2048 / 1024) ++ " KB\n") ∧
    (∀ c ∈ (toString (2048 / 1024)).data, c.isDigit = true) ∧
    (toString (2048 / 1024) ++ " KB\n").data.count (Char.ofNat 10) = 1 ∧
    (toString (2048 / 1024) ++ " KB\n").data.getLast? = some (Char.ofNat 10) ∧
    (PrintAlloc 2048 (World.mk "x" ())).state = ()) :=
  ⟨by decide, PrintAlloc_prints Unit 2048 (by decide) (World.mk "x" ())⟩

/-! ## The driver: claims -/

/-- C1, as the code has it: `main` returns for every line; it calls
`keepFirstTwoElementsOnlyImproved` exactly when the line without its leading and trailing
white space is `2`, and `keepFirstTwoElementsOnly` otherwise; the slices it ends with are
the result of that call on the populated collection.  The empty line and the line `1`
select `keepFirstTwoElementsOnly`, the line `2` selects the other. -/
theorem main_selects_by_trimmed_choice :
    (∀ (line : String) (r0 r1 r2 : Nat), ∃ res, main line r0 r1 r2 = .ok res ∧
      (res.applied = .Cleared ↔ TrimSpace line = "2") ∧
      (res.applied = .Naive ↔ TrimSpace line ≠ "2") ∧
      (if res.applied = .Cleared then keepFirstTwoElementsOnlyImproved res.populated
        else keepFirstTwoElementsOnly res.populated) =
        .ok { foos := res.foos, two := res.two }) ∧
    (∀ r0 r1 r2 : Nat, ∃ res, main "" r0 r1 r2 = .ok res ∧ res.applied = .Naive) ∧
    (∀ r0 r1 r2 : Nat, ∃ res, main "1" r0 r1 r2 = .ok res ∧ res.applied = .Naive) ∧
    (∀ r0 r1 r2 : Nat, ∃ res, main "2" r0 r1 r2 = .ok res ∧ res.applied = .Cleared) := by
  refine ⟨?_, ?_, ?_, ?_⟩
  · intro line r0 r1 r2
    refine ⟨_, main_eq line r0 r1 r2, ?_, ?_, ?_⟩
    · by_cases hc : TrimSpace line = "2" <;> simp [hc]
    · by_cases hc : TrimSpace line = "2" <;> simp [hc]
    · by_cases hc : TrimSpace line = "2"
      · simp only [hc, if_true]
        exact improved_populatedFoos 1000 (by norm_num)
      · simp only [hc, if_false]
        exact naive_populatedFoos 1000 (by norm_num)
  · intro r0 r1 r2
    refine ⟨_, main_eq "" r0 r1 r2, ?_⟩
    show (if TrimSpace "" = "2" then Strategy.Cleared else Strategy.Naive) = Strategy.Naive
    decide
  · intro r0 r1 r2
    refine ⟨_, main_eq "1" r0 r1 r2, ?_⟩
    show (if TrimSpace "1" = "2" then Strategy.Cleared else Strategy.Naive) = Strategy.Naive
    decide
  · intro r0 r1 r2
    refine ⟨_, main_eq "2" r0 r1 r2, ?_⟩
    show (if TrimSpace "2" = "2" then Strategy.Cleared else Strategy.Naive) = Strategy.Cleared
    decide

/-- C1 as stated fails: on the line made of a space and `2`, which is not the string
`2`, `main` calls `keepFirstTwoElementsOnlyImproved`. -/
theorem exact_two_not_required :
    ∃ res, main " 2" 0 0 0 = .ok res ∧ res.applied = .Cleared ∧ " 2" ≠ "2" :=
  ⟨_, main_eq " 2" 0 0 0, by decide, by decide⟩

/-- C9: the narrowing function `main` calls depends only on the line without its leading
and trailing white space.  White space is the 25 code points of `unicode.IsSpace`; the
trimmed line is the one part of the line that has only white space before and after it
and neither starts nor ends with white space; `main` calls the same function on the
line and on the trimmed line, and it calls `keepFirstTwoElementsOnlyImproved` exactly
when the trimmed line is `2`, that is, when the line is a `2` with only white space
around it.  So a space or a tab around the `2` selects it as well, although these lines
differ from the string `2`, while the empty line, `1`, `22`, a `2` with white space
inside, and a `2` next to another character select `keepFirstTwoElementsOnly`. -/
theorem choice_depends_on_trimmed_line :
    (∀ c : Char, isSpace c = true ↔ c.toNat ∈ whiteSpaceCodePoints) ∧
    (∀ line : String, IsTrimOf line.data (TrimSpace line).data ∧
      ∀ core, IsTrimOf line.data core → core = (TrimSpace line).data) ∧
    (∀ (line : String) (r0 r1 r2 : Nat), ∃ a b, main line r0 r1 r2 = .ok a ∧
      main (TrimSpace line) r0 r1 r2 = .ok b ∧ a.applied = b.applied ∧
      (a.applied = .Cleared ↔ TrimSpace line = "2") ∧
      (a.applied = .Cleared ↔ ∃ pre post : List Char, line.data = pre ++ ['2'] ++ post ∧
        (∀ c ∈ pre, isSpace c = true) ∧ (∀ c ∈ post, isSpace c = true)) ∧
      (a.applied = .Naive ↔ ¬ ∃ pre post : List Char, line.data = pre ++ ['2'] ++ post ∧
        (∀ c ∈ pre, isSpace c = true) ∧ (∀ c ∈ post, isSpace c = true))) ∧
    (TrimSpace " 2" = "2" ∧ " 2" ≠ "2" ∧
      ∃ res, main " 2" 0 0 0 = .ok res ∧ res.applied = .Cleared) ∧
    (TrimSpace "2 " = "2" ∧ "2 " ≠ "2" ∧
      ∃ res, main "2 " 0 0 0 = .ok res ∧ res.applied = .Cleared) ∧
    (TrimSpace " \t2 \r" = "2" ∧
      ∃ res, main " \t2 \r" 0 0 0 = .ok res ∧ res.applied = .Cleared) ∧
    (TrimSpace "" = "" ∧ ∃ res, main "" 0 0 0 = .ok res ∧ res.applied = .Naive) ∧
    (TrimSpace " 1 " = "1" ∧ ∃ res, main " 1 " 0 0 0 = .ok res ∧ res.applied = .Naive) ∧
    (TrimSpace "22" = "22" ∧ ∃ res, main "22" 0 0 0 = .ok res ∧ res.applied = .Naive) ∧
    (TrimSpace " 2 2 " = "2 2" ∧
      ∃ res, main " 2 2 " 0 0 0 = .ok res ∧ res.applied = .Naive) ∧
    (TrimSpace "x2" = "x2" ∧ ∃ res, main "x2" 0 0 0 = .ok res ∧ res.applied = .Naive) := by
  refine ⟨isSpace_iff, ?_, ?_, ⟨by decide, by decide, _, main_eq " 2" 0 0 0, by decide⟩,
    ⟨by decide, by decide, _, main_eq "2 " 0 0 0, by decide⟩,
    ⟨by decide, _, main_eq " \t2 \r" 0 0 0, by decide⟩,
    ⟨by decide, _, main_eq "" 0 0 0, by decide⟩,
    ⟨by decide, _, main_eq " 1 " 0 0 0, by decide⟩,
    ⟨by decide, _, main_eq "22" 0 0 0, by decide⟩,
    ⟨by decide, _, main_eq " 2 2 " 0 0 0, by decide⟩,
    ⟨by decide, _, main_eq "x2" 0 0 0, by decide⟩⟩
  · intro line
    exact ⟨trim_isTrimOf line.data, fun core h => trim_unique line.data core h⟩
  · intro line r0 r1 r2
    refine ⟨_, _, main_eq line r0 r1 r2, main_eq (TrimSpace line) r0 r1 r2, ?_, ?_, ?_, ?_⟩
    · simp only [TrimSpace_idem]
    · by_cases hc : TrimSpace line = "2" <;> simp [hc]
    · rw [← trimmed_two_iff]
      by_cases hc : TrimSpace line = "2" <;> simp [hc]
    · rw [← trimmed_two_iff]
      by_cases hc : TrimSpace line = "2" <;> simp [hc]

/-- C5: in every run of `main` the collection has 1000 records, none of which has a
buffer after `make`, and each of which has a buffer of 1048576 bytes after the
population loop; at exit the backing array still has 1000 records, of which 2 hold a
buffer and 998 hold none when `keepFirstTwoElementsOnlyImproved` was called, and all
1000 hold one when `keepFirstTwoElementsOnly` was called. -/
theorem main_buffer_counts (line : String) (r0 r1 r2 : Nat) :
    ∃ res, main line r0 r1 r2 = .ok res ∧
      res.allocated.len = 1000 ∧ res.allocated.elems.length = 1000 ∧
      (∀ f ∈ res.allocated.elems, f.v = none) ∧
      res.populated.len = 1000 ∧ res.populated.elems.length = 1000 ∧
      (∀ f ∈ res.populated.elems, ∃ buf, f.v = some buf ∧ buf.length = 1048576) ∧
      res.foos.backing.length = 1000 ∧
      res.foos.backing.countP (fun f => f.v.isSome) =
        (if res.applied = .Cleared then 2 else 1000) ∧
      res.foos.backing.countP (fun f => f.v.isNone) =
        (if res.applied = .Cleared then 998 else 0) := by
  refine ⟨_, main_eq line r0 r1 r2, rfl, ?_, ?_, rfl, ?_, ?_, ?_, ?_, ?_⟩
  · show (makeFoos 1000).elems.length = 1000
    rw [makeFoos_elems, List.length_replicate]
  · show ∀ f ∈ (makeFoos 1000).elems, f.v = none
    intro f hf
    rw [makeFoos_elems] at hf
    rw [List.eq_of_mem_replicate hf]
  · show (populatedFoos 1000).elems.length = 1000
    rw [populatedFoos_elems, List.length_replicate]
  · show ∀ f ∈ (populatedFoos 1000).elems, ∃ buf, f.v = some buf ∧ buf.length = 1048576
    intro f hf
    rw [populatedFoos_elems] at hf
    rw [List.eq_of_mem_replicate hf]
    exact filled_buffer
  · by_cases hc : TrimSpace line = "2"
    · simp only [hc, if_true]
      exact (clearedFoos_count 1000 (by norm_num)).2.2
    · simp only [hc, if_false]
      show (List.replicate 1000 Foo.filled).length = 1000
      rw [List.length_replicate]
  · by_cases hc : TrimSpace line = "2"
    · simp only [hc, if_true]
      exact (clearedFoos_count 1000 (by norm_num)).1
    · simp only [hc, if_false]
      have h : (Strategy.Naive = Strategy.Cleared) = False := by simp
      simp only [h, if_false]
      exact populatedFoos_count 1000
  · by_cases hc : TrimSpace line = "2"
    · simp only [hc, if_true]
      exact (clearedFoos_count 1000 (by norm_num)).2.1
    · simp only [hc, if_false]
      have h : (Strategy.Naive = Strategy.Cleared) = False := by simp
      simp only [h, if_false]
      show (List.replicate 1000 Foo.filled).countP (fun f => f.v.isNone) = 0
      simp only [List.countP_replicate, filled_isNone, Bool.false_eq_true, if_false]

/-- C7, as the code has it: for every line and three readings below `2^64`, `main`
returns and its console text is the protocol text, in which the version line is the
improved one exactly when the line without its leading and trailing white space is `2`;
that version line names the function `main` called, and the slices `main` ends with are
the result of that function on the populated collection.  On the line `1` with readings 0
the text is the protocol with the regular version line, and on the line ` 2 ` with
readings 1048576000, 2048 and 2047 it is the protocol with the improved version line. -/
theorem main_console_output (line : String) (r0 r1 r2 : Nat)
    (h0 : r0 < 2 ^ 64) (h1 : r1 < 2 ^ 64) (h2 : r2 < 2 ^ 64) :
    ∃ res, main line r0 r1 r2 = .ok res ∧
      res.stdout = consoleProtocol (decide (TrimSpace line = "2")) r0 r1 r2 ∧
      res.stdout = consoleProtocol (decide (res.applied = .Cleared)) r0 r1 r2 ∧
      (if res.applied = .Cleared then keepFirstTwoElementsOnlyImproved res.populated
        else keepFirstTwoElementsOnly res.populated) =
        .ok { foos := res.foos, two := res.two } ∧
      (∃ one, main "1" 0 0 0 = .ok one ∧ one.stdout =
        "0 KB\nBefore garbage collection:\n0 KB\nChoose which method to use:\n" ++
        "1. Regular (keepFirstTwoElementsOnly)\n" ++
        "2. Improved (keepFirstTwoElementsOnlyImproved)\n" ++
        "Enter your choice (1 or 2): Using regular version...\n" ++
        "After garbage collection:\n0 KB\n") ∧
      (∃ two, main " 2 " 1048576000 2048 2047 = .ok two ∧ two.stdout =
        "1024000 KB\nBefore garbage collection:\n2 KB\nChoose which method to use:\n" ++
        "1. Regular (keepFirstTwoElementsOnly)\n" ++
        "2. Improved (keepFirstTwoElementsOnlyImproved)\n" ++
        "Enter your choice (1 or 2): Using improved version...\n" ++
        "After garbage collection:\n1 KB\n") := by
  refine ⟨_, main_eq line r0 r1 r2, stdout_eq line r0 r1 r2 h0 h1 h2, ?_, ?_,
    console_regular_instance, console_improved_instance⟩
  · show _ = consoleProtocol (decide ((if TrimSpace line = "2" then Strategy.Cleared
        else Strategy.Naive) = Strategy.Cleared)) r0 r1 r2
    rw [stdout_eq line r0 r1 r2 h0 h1 h2]
    by_cases hc : TrimSpace line = "2" <;> simp [hc]
  · by_cases hc : TrimSpace line = "2"
    · simp only [hc, if_true]
      exact improved_populatedFoos 1000 (by norm_num)
    · simp only [hc, if_false]
      exact naive_populatedFoos 1000 (by norm_num)

/-- Evaluation of C7 at the line `2` and the readings 2048, 4096 and 8192. -/
theorem main_console_output_witness :
    2048 < 2 ^ 64 ∧ 4096 < 2 ^ 64 ∧ 8192 < 2 ^ 64 ∧
    ∃ res, main "2" 2048 4096 8192 = .ok res ∧
      res.stdout = consoleProtocol (decide (TrimSpace "2" = "2")) 2048 4096 8192 ∧
      res.stdout = consoleProtocol (decide (res.applied = .Cleared)) 2048 4096 8192 ∧
      (if res.applied = .Cleared then keepFirstTwoElementsOnlyImproved res.populated
        else keepFirstTwoElementsOnly res.populated) =
        .ok { foos := res.foos, two := res.two } ∧
      (∃ one, main "1" 0 0 0 = .ok one ∧ one.stdout =
        "0 KB\nBefore garbage collection:\n0 KB\nChoose which method to use:\n" ++
        "1. Regular (keepFirstTwoElementsOnly)\n" ++
        "2. Improved (keepFirstTwoElementsOnlyImproved)\n" ++
        "Enter your choice (1 or 2): Using regular version...\n" ++
        "After garbage collection:\n0 KB\n") ∧
      (∃ two, main " 2 " 1048576000 2048 2047 = .ok two ∧ two.stdout =
        "1024000 KB\nBefore garbage collection:\n2 KB\nChoose which method to use:\n" ++
        "1. Regular (keepFirstTwoElementsOnly)\n" ++
        "2. Improved (keepFirstTwoElementsOnlyImproved)\n" ++
        "Enter your choice (1 or 2): Using improved version...\n" ++
        "After garbage collection:\n1 KB\n") :=
  ⟨by decide, by decide, by decide,
    main_console_output "2" 2048 4096 8192 (by decide) (by decide) (by decide)⟩

set_option maxRecDepth 20000 in
/-- C7 as stated fails: on the line made of a space and `2`, which is not the string
`2`, the console text of `main` is not the protocol text with the version line chosen
by comparing the line itself with `2`. -/
theorem console_output_not_by_exact_line :
    ∃ res, main " 2" 0 0 0 = .ok res ∧
      res.stdout ≠ consoleProtocol (decide (" 2" = "2")) 0 0 0 :=
  ⟨_, main_eq " 2" 0 0 0, by decide⟩

/-- C10: for a collection of length at least 2 both narrowing functions return without
a panic a view of length 2, and `keepFirstTwoElementsOnlyImproved` leaves every record
outside the indices from 2 up to the length as it was; in every run of `main` the
populated collection has length 1000, which is at least 2, and `main` returns with a
slice `two` of length 2. -/
theorem narrowing_never_panics (foos : FooSlice) (hwf : foos.WF) (h2 : 2 ≤ foos.len) :
    (∃ a, keepFirstTwoElementsOnly foos = .ok a ∧ a.two.len = 2 ∧ a.two.elems.length = 2) ∧
    (∃ b, keepFirstTwoElementsOnlyImproved foos = .ok b ∧ b.two.len = 2 ∧
      b.two.elems.length = 2 ∧
      ∀ i, (i < 2 ∨ foos.len ≤ i) → b.foos.backing[i]? = foos.backing[i]?) ∧
    (∀ (line : String) (r0 r1 r2 : Nat), ∃ res, main line r0 r1 r2 = .ok res ∧
      res.populated.WF ∧ res.populated.len = 1000 ∧ 2 ≤ res.populated.len ∧
      res.two.len = 2) := by
  have hwf2 : foos.len ≤ foos.backing.length := hwf
  refine ⟨⟨_, keepFirstTwoElementsOnly_eq foos (by omega), rfl, ?_⟩, ?_, ?_⟩
  · simp only [FooSlice.elems, List.length_take]
    omega
  · obtain ⟨r, hr, hlen, hbl, htwo, hget⟩ :=
      keepFirstTwoElementsOnlyImproved_spec foos (by omega)
    refine ⟨r, hr, by rw [htwo], ?_, ?_⟩
    · rw [htwo]
      simp only [FooSlice.elems, List.length_take]
      omega
    · intro i hi
      have hi2 : ¬ (2 ≤ i ∧ i < foos.len) := by omega
      simp [hget i, hi2]
  · intro line r0 r1 r2
    refine ⟨_, main_eq line r0 r1 r2, ?_, rfl, ?_, rfl⟩
    · show (populatedFoos 1000).len ≤ (List.replicate 1000 Foo.filled).length
      rw [List.length_replicate]
      exact Nat.le_refl _
    · show 2 ≤ 1000
      norm_num

/-- Evaluation of C10 at `sample`. -/
theorem narrowing_never_panics_witness :
    sample.WF ∧ 2 ≤ sample.len ∧
    ((∃ a, keepFirstTwoElementsOnly sample = .ok a ∧ a.two.len = 2 ∧
      a.two.elems.length = 2) ∧
    (∃ b, keepFirstTwoElementsOnlyImproved sample = .ok b ∧ b.two.len = 2 ∧
      b.two.elems.length = 2 ∧
      ∀ i, (i < 2 ∨ sample.len ≤ i) → b.foos.backing[i]? = sample.backing[i]?) ∧
    (∀ (line : String) (r0 r1 r2 : Nat), ∃ res, main line r0 r1 r2 = .ok res ∧
      res.populated.WF ∧ res.populated.len = 1000 ∧ 2 ≤ res.populated.len ∧
      res.two.len = 2)) :=
  ⟨by decide, by decide, narrowing_never_panics sample (by decide) (by decide)⟩

/-- Evaluation of C2 at `sample`. -/
theorem keepFirstTwoElementsOnlyImproved_clears_witness :
    sample.WF ∧ 2 ≤ sample.len ∧
    ∃ r, keepFirstTwoElementsOnlyImproved sample = .ok r ∧
      (∀ i, 2 ≤ i → i < sample.len → (r.foos.elems[i]?).map Foo.v = some none) ∧
      r.foos.elems[0]? = sample.elems[0]? ∧ r.foos.elems[1]? = sample.elems[1]? ∧
      (∃ a b, sample.elems[0]? = some a ∧ sample.elems[1]? = some b) ∧
      r.foos.len = sample.len ∧ r.foos.elems.length = sample.elems.length :=
  ⟨by decide, by decide, keepFirstTwoElementsOnlyImproved_clears sample (by decide) (by decide)⟩

/-- Evaluation of C3 at `sample`. -/
theorem keepFirstTwoElementsOnly_frame_witness :
    sample.WF ∧ 2 ≤ sample.len ∧
    ∃ r, keepFirstTwoElementsOnly sample = .ok r ∧
      (∃ a b, sample.elems[0]? = some a ∧ sample.elems[1]? = some b ∧
        r.two.elems = [a, b]) ∧
      r.foos = sample ∧ r.two.backing = sample.backing :=
  ⟨by decide, by decide, keepFirstTwoElementsOnly_frame sample (by decide) (by decide)⟩

/-- Evaluation of C4 at `sample`. -/
theorem narrowed_views_agree_witness :
    sample.WF ∧ 2 ≤ sample.len ∧
    ∃ a b, keepFirstTwoElementsOnlyImproved sample = .ok a ∧
      keepFirstTwoElementsOnly sample = .ok b ∧
      a.two.elems = b.two.elems ∧ a.two.elems = sample.elems.take 2 ∧
      a.two.elems.length = 2 ∧ a.two.len = 2 ∧ b.two.len = 2 ∧ a.two.cap = b.two.cap ∧
      a.foos.len = b.foos.len ∧
      ∀ i, (i < 2 ∨ sample.len ≤ i) → a.foos.backing[i]? = b.foos.backing[i]? :=
  ⟨by decide, by decide, narrowed_views_agree sample (by decide) (by decide)⟩

end Reclaim
